import Mathlib

/-!
Verification of the soft-MMU core (`src/mmu.rs`): the flat permission-checked
address space with a bump allocator, byte-granular permissions and
block-granular dirty tracking used for snapshot fork/reset.

Machine integers (`usize`) are modelled as `Nat`; the checked additions of the
source carry an explicit `< 2 ^ 64` bound, and `align`'s bit trick is kept as
a `Nat` bitwise operation (masking with `!ALIGNMENT` absorbs any wrap of the
`num + ALIGNMENT` addition, since the mask keeps only the low 64 bits).
`Vec<T>` is modelled as an explicit length together with a contents function
`Nat → Nat`; values of the function outside `[0, len)` are junk that no
operation reads or depends on.

Operations that can fail return `MRes`: `ok` models `Some`, `fault` models a
`None` return (the single failure value of the source API), and `abort`
models a Rust panic (an out-of-range `Vec` index or slice), which is not a
return value at all.  `read` takes `&self` in the source and therefore has no
state output here.
-/

/-- Memory is aligned to this base (`ALIGNMENT` in the source). -/
def ALIGNMENT : Nat := 0xf

/-- Size of a dirty block (`DIRTY_BLOCK_SIZE` in the source). -/
def DIRTY_BLOCK_SIZE : Nat := 4096

/-- Number of bits in a single `dirty_bitmap` element (`u128::BITS`). -/
def DBE_BITS : Nat := 128

/-- Write permission bit. -/
def PERM_WRITE : Nat := 1

/-- Read permission bit. -/
def PERM_READ : Nat := 2

/-- Exec permission bit. -/
def PERM_EXEC : Nat := 4

/-- One past the largest `usize` value: `usize::MAX + 1 = 2 ^ 64`. -/
def USIZE : Nat := 2 ^ 64

/-- `usize::checked_add`: `some` of the sum when it fits in 64 bits. -/
def checked_add (a b : Nat) : Option Nat :=
  if a + b < USIZE then some (a + b) else none

/-- Returns the number `num` aligned to `ALIGNMENT`: the source computes
`(num + ALIGNMENT) & !ALIGNMENT` on `usize`; `!ALIGNMENT` is `2 ^ 64 - 16`,
and masking with it absorbs the 64-bit wrap of the addition. -/
def align (num : Nat) : Nat :=
  (num + ALIGNMENT) &&& (USIZE - (ALIGNMENT + 1))

/-- Result of a fallible MMU operation: `ok` is `Some`, `fault` is the `None`
return value of the source, `abort` is a Rust panic (never a return value). -/
inductive MRes (α : Type) where
  | ok (val : α)
  | fault
  | abort
deriving DecidableEq, Repr

/-- Memory space of an emulator.  Each `Vec` of the source is modelled as an
explicit length plus a total contents function. -/
structure Mmu where
  /-- Length of the guest memory buffer (`memory.len()`). -/
  mem_len : Nat
  /-- Guest memory address space (`memory`). -/
  memory : Nat → Nat
  /-- Length of the permission buffer (`permissions.len()`). -/
  perm_len : Nat
  /-- Permissions of the corresponding memory (`permissions`). -/
  permissions : Nat → Nat
  /-- Indexes into `dirty_bitmap` (`dirty_indexes`). -/
  dirty_indexes : List Nat
  /-- Length of the dirty bitmap vector (`dirty_bitmap.len()`). -/
  dirty_bitmap_len : Nat
  /-- A bitmap tracking dirtied regions in memory (`dirty_bitmap`, `Vec<u128>`). -/
  dirty_bitmap : Nat → Nat
  /-- Base `VAddr` of the next allocation (`alloc_base`). -/
  alloc_base : Nat

/-- A default (zero-sized) memory space, used only to peel `Option Mmu`. -/
def dummyMmu : Mmu :=
  { mem_len := 0, memory := fun _ => 0, perm_len := 0, permissions := fun _ => 0,
    dirty_indexes := [], dirty_bitmap_len := 0, dirty_bitmap := fun _ => 0,
    alloc_base := 0 }

/-- Create a new `size` long memory space (`Mmu::new`).  The source's local
`aligned_size` (computed by the same expression as `align`) is written
`align size`, and `dirty_bm_size` is inlined.  The construction-time panic
(capacity smaller than one dirty block after alignment) is modelled as
`none`. -/
def Mmu.new (size : Nat) : Option Mmu :=
  if align size < DIRTY_BLOCK_SIZE then none
  else some
    { mem_len := align size, memory := fun _ => 0,
      perm_len := align size, permissions := fun _ => 0,
      dirty_indexes := [],
      dirty_bitmap_len := size / DIRTY_BLOCK_SIZE / DBE_BITS + 1,
      dirty_bitmap := fun _ => 0,
      alloc_base := 0 }

/-- Fork the memory state of the current MMU, clearing all dirty bits
(`Mmu::fork`). -/
def Mmu.fork (m : Mmu) : Mmu :=
  { mem_len := m.mem_len, memory := m.memory,
    perm_len := m.perm_len, permissions := m.permissions,
    dirty_indexes := [],
    dirty_bitmap_len := m.dirty_bitmap_len, dirty_bitmap := fun _ => 0,
    alloc_base := m.alloc_base }

/-- The body of `Mmu::reset`'s `for &dirty_idx in &self.dirty_indexes` loop.
Each iteration zeroes the whole bitmap word of the index and copies the
block's byte range of memory and permissions from `other`; an out-of-range
`Vec` index or slice is a panic, modelled as `none`. -/
def resetLoop (other : Mmu) : List Nat → Mmu → Option Mmu
  | [], m => some m
  | dirty_idx :: rest, m =>
    if dirty_idx / DBE_BITS < m.dirty_bitmap_len ∧
        (dirty_idx + 1) * DIRTY_BLOCK_SIZE ≤ m.mem_len ∧
        (dirty_idx + 1) * DIRTY_BLOCK_SIZE ≤ other.mem_len ∧
        (dirty_idx + 1) * DIRTY_BLOCK_SIZE ≤ m.perm_len ∧
        (dirty_idx + 1) * DIRTY_BLOCK_SIZE ≤ other.perm_len then
      resetLoop other rest
        { m with
          dirty_bitmap := fun w =>
            if w = dirty_idx / DBE_BITS then 0 else m.dirty_bitmap w
          memory := fun i =>
            if dirty_idx * DIRTY_BLOCK_SIZE ≤ i ∧ i < (dirty_idx + 1) * DIRTY_BLOCK_SIZE
            then other.memory i else m.memory i
          permissions := fun i =>
            if dirty_idx * DIRTY_BLOCK_SIZE ≤ i ∧ i < (dirty_idx + 1) * DIRTY_BLOCK_SIZE
            then other.permissions i else m.permissions i }
    else none

/-- Restore the memory state (dirty blocks) of the current MMU to the state of
the `other` MMU (`Mmu::reset`); afterwards `dirty_indexes.clear()`. -/
def Mmu.reset (m other : Mmu) : Option Mmu :=
  (resetLoop other m.dirty_indexes m).map fun m' => { m' with dirty_indexes := [] }

/-- Set the permissions of a `size` long memory block starting from `addr` to
`perm` (`Mmu::set_permissions`): every permission byte of
`[addr, addr + size)` is overwritten with `perm`. -/
def Mmu.set_permissions (m : Mmu) (addr size perm : Nat) : Mmu × MRes Unit :=
  match checked_add addr size with
  | none => (m, MRes.fault)
  | some hi =>
    if hi ≤ m.perm_len then
      ({ m with permissions := fun i =>
          if addr ≤ i ∧ i < hi then perm else m.permissions i },
       MRes.ok ())
    else (m, MRes.fault)

/-- Allocate a region in memory (`Mmu::allocate`).  The source's local
`cur_base` (a copy of `alloc_base`) is inlined as `m.alloc_base`. -/
def Mmu.allocate (m : Mmu) (size : Nat) : Mmu × MRes Nat :=
  match checked_add m.alloc_base (align size) with
  | none => (m, MRes.fault)
  | some next_base =>
    if next_base > m.mem_len then (m, MRes.fault)
    else
      match m.set_permissions m.alloc_base size PERM_WRITE with
      | (m', MRes.ok _) => ({ m' with alloc_base := next_base }, MRes.ok m.alloc_base)
      | (m', _) => (m', MRes.fault)

/-- The source's permission scan `perms.iter().any(|x| (x.0 & mask) == 0)`
over the slice `[lo, lo + n)`. -/
def permAnyClear (perms : Nat → Nat) (mask lo : Nat) : Nat → Bool
  | 0 => false
  | n + 1 => (perms lo &&& mask == 0) || permAnyClear perms mask (lo + 1) n

/-- The dirty-tracking loop of `Mmu::write`:
`for dirty_block in dirty_start..=dirty_end`, with the remaining iteration
count as fuel.  As in the source, the word index and bit position are
recomputed from `dirty_start` (not from `dirty_block`) on every iteration;
an out-of-range bitmap index is a panic, modelled as `none`. -/
def dirtyMark (dirty_start bmlen : Nat) :
    Nat → Nat → (Nat → Nat) → List Nat → Option ((Nat → Nat) × List Nat)
  | _, 0, bm, log => some (bm, log)
  | dirty_block, n + 1, bm, log =>
    let idx := dirty_start / DBE_BITS
    let bit := dirty_start % DBE_BITS
    if idx < bmlen then
      if bm idx &&& (1 <<< bit) == 0 then
        dirtyMark dirty_start bmlen (dirty_block + 1) n
          (fun w => if w = idx then bm w ||| (1 <<< bit) else bm w)
          (log ++ [dirty_block])
      else
        dirtyMark dirty_start bmlen (dirty_block + 1) n bm log
    else none

/-- Write bytes from `buf` to memory at `addr` (`Mmu::write`).  The checks
happen in source order: checked address arithmetic, permission-slice range,
`PERM_WRITE` on every byte, memory-slice range; then the memory copy, the
dirty-tracking loop, and finally `PERM_READ` is or-ed onto every permission
byte of the range.  The source's locals `from`, `to`, `dirty_start` and
`dirty_end` are inlined; a panic inside the dirty loop happens after the
memory copy, so the `abort` state carries the updated memory. -/
def Mmu.write (m : Mmu) (addr : Nat) (buf : List Nat) : Mmu × MRes Unit :=
  match checked_add addr buf.length with
  | none => (m, MRes.fault)
  | some hi =>
    if hi ≤ m.perm_len then
      if permAnyClear m.permissions PERM_WRITE addr (hi - addr) then (m, MRes.fault)
      else if hi ≤ m.mem_len then
        match dirtyMark (addr / DIRTY_BLOCK_SIZE) m.dirty_bitmap_len
            (addr / DIRTY_BLOCK_SIZE)
            (hi / DIRTY_BLOCK_SIZE + 1 - addr / DIRTY_BLOCK_SIZE)
            m.dirty_bitmap m.dirty_indexes with
        | none =>
          ({ m with memory := fun i =>
              if addr ≤ i ∧ i < hi then buf.getD (i - addr) 0 else m.memory i },
           MRes.abort)
        | some (bm', log') =>
          ({ m with
              memory := fun i =>
                if addr ≤ i ∧ i < hi then buf.getD (i - addr) 0 else m.memory i
              dirty_bitmap := bm'
              dirty_indexes := log'
              permissions := fun i =>
                if addr ≤ i ∧ i < hi then m.permissions i ||| PERM_READ
                else m.permissions i },
           MRes.ok ())
      else (m, MRes.fault)
    else (m, MRes.fault)

/-- Reads `len` bytes from memory at `addr` (`Mmu::read`): the source copies
into a caller buffer of length `len`; the copied bytes are returned here.
`read` takes `&self` and never mutates the MMU. -/
def Mmu.read (m : Mmu) (addr len : Nat) : Option (List Nat) :=
  match checked_add addr len with
  | none => none
  | some hi =>
    if hi ≤ m.perm_len then
      if permAnyClear m.permissions PERM_READ addr (hi - addr) then none
      else if hi ≤ m.mem_len then
        some ((List.range len).map fun k => m.memory (addr + k))
      else none
    else none

/-- The dirty-bitmap bit of block `i`: bit `i % 128` of word `i / 128`. -/
def dirtyBit (m : Mmu) (i : Nat) : Bool :=
  (m.dirty_bitmap (i / DBE_BITS)).testBit (i % DBE_BITS)

/-- Structural invariant of a well-formed MMU: the two buffers have the same
length, bounded by `align`'s range, the allocation cursor is in bounds, the
bitmap holds 128-bit words that vanish beyond `dirty_bitmap_len`, and a dirty
bit is set for block `i` exactly when `i` is in the dirty index log. -/
def MmuInv (m : Mmu) : Prop :=
  m.mem_len = m.perm_len ∧
  m.mem_len ≤ USIZE - (ALIGNMENT + 1) ∧
  m.alloc_base ≤ m.mem_len ∧
  (∀ w, m.dirty_bitmap_len ≤ w → m.dirty_bitmap w = 0) ∧
  (∀ w, m.dirty_bitmap w < 2 ^ DBE_BITS) ∧
  (∀ i, dirtyBit m i = true ↔ i ∈ m.dirty_indexes)

/-- States reachable by the public API from construction.  `write` steps are
taken only when they do not panic; a faulting operation returns the input
state unchanged, so faulting steps add no new states. -/
inductive Reachable : Mmu → Prop where
  | new : ∀ size m, Mmu.new size = some m → Reachable m
  | fork : ∀ m, Reachable m → Reachable m.fork
  | allocate : ∀ m size, Reachable m → Reachable (m.allocate size).1
  | set_permissions : ∀ m addr size perm, Reachable m →
      Reachable (m.set_permissions addr size perm).1
  | write : ∀ m addr buf, Reachable m → (m.write addr buf).2 ≠ MRes.abort →
      Reachable (m.write addr buf).1
  | reset : ∀ m other m', Reachable m → m.reset other = some m' → Reachable m'

/-- `Steps m m'`: `m'` is obtained from `m` by a (possibly empty) sequence of
API operations on the same instance lineage (`fork` continues on the copy). -/
inductive Steps : Mmu → Mmu → Prop where
  | refl : ∀ m, Steps m m
  | fork : ∀ m m', Steps m m' → Steps m m'.fork
  | allocate : ∀ m m' size, Steps m m' → Steps m (m'.allocate size).1
  | set_permissions : ∀ m m' addr size perm, Steps m m' →
      Steps m (m'.set_permissions addr size perm).1
  | write : ∀ m m' addr buf, Steps m m' → (m'.write addr buf).2 ≠ MRes.abort →
      Steps m (m'.write addr buf).1
  | reset : ∀ m m' other m'', Steps m m' → m'.reset other = some m'' → Steps m m''

/-- A concrete 4096-byte memory space. -/
def mmu4096 : Mmu := (Mmu.new 4096).getD dummyMmu

/-- A concrete 8192-byte memory space. -/
def mmu8192 : Mmu := (Mmu.new 8192).getD dummyMmu

/-- A concrete memory space of requested capacity 5000 bytes. -/
def mmu5000 : Mmu := (Mmu.new 5000).getD dummyMmu

/-- `mmu8192` with all 8192 bytes allocated (write-only). -/
def mmu8192a : Mmu := (mmu8192.allocate 8192).1

/-- `mmu8192a` after a 10-byte write spanning dirty blocks 0 and 1. -/
def mmu8192w : Mmu := (mmu8192a.write 4090 (List.replicate 10 7)).1

/-- `mmu4096` with 64 bytes allocated. -/
def mmu4096a : Mmu := (mmu4096.allocate 64).1

/-- A clean fork of `mmu4096a`. -/
def mmu4096f : Mmu := mmu4096a.fork

/-- `mmu4096f` after writing three bytes at address 0 (dirties block 0). -/
def mmu4096w : Mmu := (mmu4096f.write 0 [1, 2, 3]).1

/-! ### Basic arithmetic and bit lemmas -/

theorem checked_add_eq_some {a b c : Nat} (h : checked_add a b = some c) :
    c = a + b ∧ a + b < USIZE := by
  unfold checked_add at h
  split at h
  · cases h; exact ⟨rfl, by assumption⟩
  · cases h

theorem checked_add_of_lt {a b : Nat} (h : a + b < USIZE) :
    checked_add a b = some (a + b) := by
  unfold checked_add
  rw [if_pos h]

theorem checked_add_of_ge {a b : Nat} (h : ¬ a + b < USIZE) :
    checked_add a b = none := by
  unfold checked_add
  rw [if_neg h]

theorem one_shiftLeft_eq (b : Nat) : 1 <<< b = 2 ^ b := by
  rw [Nat.shiftLeft_eq, one_mul]

theorem and_shift_eq_zero_iff (x b : Nat) :
    x &&& (1 <<< b) = 0 ↔ x.testBit b = false := by
  rw [one_shiftLeft_eq, Nat.and_two_pow]
  cases h : x.testBit b
  · simp
  · simp [(Nat.two_pow_pos b).ne']

theorem testBit_or_shift (x b j : Nat) :
    (x ||| (1 <<< b)).testBit j = (x.testBit j || decide (b = j)) := by
  rw [one_shiftLeft_eq, Nat.testBit_or, Nat.testBit_two_pow]

theorem or_shift_and_ne (x b : Nat) : (x ||| (1 <<< b)) &&& (1 <<< b) ≠ 0 := by
  rw [Ne, and_shift_eq_zero_iff, testBit_or_shift]
  simp

theorem align_le_mask (num : Nat) : align num ≤ USIZE - (ALIGNMENT + 1) :=
  Nat.and_le_right

theorem mask_eq_shift : USIZE - (ALIGNMENT + 1) = (2 ^ 60 - 1) <<< 4 := by
  rw [Nat.shiftLeft_eq]
  norm_num [USIZE, ALIGNMENT]

theorem align_eq_of_lt {num : Nat} (h : num + ALIGNMENT < USIZE) :
    align num = (num + ALIGNMENT) / 16 * 16 := by
  have h16 : (num + ALIGNMENT) / 16 * 16 = ((num + ALIGNMENT) >>> 4) <<< 4 := by
    rw [Nat.shiftRight_eq_div_pow, Nat.shiftLeft_eq]
  rw [h16]
  unfold align
  rw [mask_eq_shift]
  apply Nat.eq_of_testBit_eq
  intro i
  rw [Nat.testBit_land, Nat.testBit_shiftLeft, Nat.testBit_shiftLeft,
      Nat.testBit_shiftRight, Nat.testBit_two_pow_sub_one]
  by_cases h4 : 4 ≤ i
  · by_cases h64 : i < 64
    · rw [show 4 + (i - 4) = i by omega]
      simp [ge_iff_le, h4, show i - 4 < 60 by omega]
    · have hbig : USIZE ≤ 2 ^ i := by
        unfold USIZE
        exact Nat.pow_le_pow_right (by norm_num) (by omega)
      have hbit : (num + ALIGNMENT).testBit i = false :=
        Nat.testBit_lt_two_pow (lt_of_lt_of_le h hbig)
      rw [show 4 + (i - 4) = i by omega]
      simp [hbit, show ¬ i - 4 < 60 by omega]
  · simp [ge_iff_le, h4]

theorem le_align {num : Nat} (h : num + ALIGNMENT < USIZE) : num ≤ align num := by
  rw [align_eq_of_lt h]
  have h1 := Nat.div_add_mod (num + ALIGNMENT) 16
  have h2 : (num + ALIGNMENT) % 16 < 16 := Nat.mod_lt _ (by norm_num)
  have h3 : ALIGNMENT = 15 := rfl
  omega

theorem permAnyClear_succ (f : Nat → Nat) (mask lo n : Nat) :
    permAnyClear f mask lo (n + 1) =
      ((f lo &&& mask == 0) || permAnyClear f mask (lo + 1) n) := rfl

theorem permAnyClear_eq_false_iff (f : Nat → Nat) (mask : Nat) :
    ∀ n lo, permAnyClear f mask lo n = false ↔
      ∀ k, k < n → f (lo + k) &&& mask ≠ 0 := by
  intro n
  induction n with
  | zero =>
    intro lo
    constructor
    · intro _ k hk
      omega
    · intro _
      rfl
  | succ n ih =>
    intro lo
    rw [permAnyClear_succ, Bool.or_eq_false_iff]
    constructor
    · rintro ⟨h1, h2⟩ k hk
      match k with
      | 0 =>
        rw [Nat.add_zero]
        simpa using h1
      | k + 1 =>
        have := (ih (lo + 1)).mp h2 k (by omega)
        rwa [show lo + (k + 1) = lo + 1 + k by omega]
    · intro h
      refine ⟨by simpa using h 0 (by omega), (ih (lo + 1)).mpr ?_⟩
      intro k hk
      have := h (k + 1) (by omega)
      rwa [show lo + (k + 1) = lo + 1 + k by omega] at this

/-! ### Characterizations of `set_permissions` and `allocate` -/

theorem set_permissions_eq_ok {m : Mmu} {a s p : Nat}
    (h1 : a + s < USIZE) (h2 : a + s ≤ m.perm_len) :
    m.set_permissions a s p =
      ({ m with permissions := fun i =>
          if a ≤ i ∧ i < a + s then p else m.permissions i },
       MRes.ok ()) := by
  unfold Mmu.set_permissions
  rw [checked_add_of_lt h1]
  exact if_pos h2

theorem set_permissions_eq_fault {m : Mmu} {a s p : Nat}
    (h : ¬ (a + s < USIZE ∧ a + s ≤ m.perm_len)) :
    m.set_permissions a s p = (m, MRes.fault) := by
  unfold Mmu.set_permissions
  by_cases h1 : a + s < USIZE
  · rw [checked_add_of_lt h1]
    exact if_neg fun h2 => h ⟨h1, h2⟩
  · rw [checked_add_of_ge h1]

theorem set_permissions_ok_iff {m : Mmu} {a s p : Nat} :
    (m.set_permissions a s p).2 = MRes.ok () ↔ a + s < USIZE ∧ a + s ≤ m.perm_len := by
  constructor
  · intro h
    by_cases h1 : a + s < USIZE
    · by_cases h2 : a + s ≤ m.perm_len
      · exact ⟨h1, h2⟩
      · rw [set_permissions_eq_fault fun hh => h2 hh.2] at h
        cases h
    · rw [set_permissions_eq_fault fun hh => h1 hh.1] at h
      cases h
  · rintro ⟨h1, h2⟩
    rw [set_permissions_eq_ok h1 h2]

theorem allocate_eq_ok {m : Mmu} {s : Nat}
    (h1 : m.alloc_base + align s < USIZE)
    (h2 : m.alloc_base + align s ≤ m.mem_len)
    (h3 : m.alloc_base + s < USIZE)
    (h4 : m.alloc_base + s ≤ m.perm_len) :
    m.allocate s =
      ({ m with
          permissions := fun i =>
            if m.alloc_base ≤ i ∧ i < m.alloc_base + s then PERM_WRITE
            else m.permissions i
          alloc_base := m.alloc_base + align s },
       MRes.ok m.alloc_base) := by
  unfold Mmu.allocate
  rw [checked_add_of_lt h1]
  show (if m.alloc_base + align s > m.mem_len then _ else _) = _
  rw [if_neg (Nat.not_lt.mpr h2), set_permissions_eq_ok h3 h4]

theorem allocate_eq_fault {m : Mmu} {s : Nat}
    (h : ¬ (m.alloc_base + align s < USIZE ∧ m.alloc_base + align s ≤ m.mem_len ∧
            m.alloc_base + s < USIZE ∧ m.alloc_base + s ≤ m.perm_len)) :
    m.allocate s = (m, MRes.fault) := by
  unfold Mmu.allocate
  by_cases h1 : m.alloc_base + align s < USIZE
  · rw [checked_add_of_lt h1]
    show (if m.alloc_base + align s > m.mem_len then _ else _) = _
    by_cases h2 : m.alloc_base + align s ≤ m.mem_len
    · rw [if_neg (Nat.not_lt.mpr h2),
          set_permissions_eq_fault fun hh => h ⟨h1, h2, hh.1, hh.2⟩]
    · rw [if_pos (Nat.lt_of_not_le h2)]
  · rw [checked_add_of_ge h1]

theorem allocate_ok_conds {m : Mmu} {s v : Nat}
    (h : (m.allocate s).2 = MRes.ok v) :
    v = m.alloc_base ∧ m.alloc_base + align s < USIZE ∧
    m.alloc_base + align s ≤ m.mem_len ∧ m.alloc_base + s < USIZE ∧
    m.alloc_base + s ≤ m.perm_len := by
  by_cases hc : m.alloc_base + align s < USIZE ∧ m.alloc_base + align s ≤ m.mem_len ∧
      m.alloc_base + s < USIZE ∧ m.alloc_base + s ≤ m.perm_len
  · obtain ⟨h1, h2, h3, h4⟩ := hc
    rw [allocate_eq_ok h1 h2 h3 h4] at h
    cases h
    exact ⟨rfl, h1, h2, h3, h4⟩
  · rw [allocate_eq_fault hc] at h
    cases h

/-! ### Characterization of the dirty-tracking loop and `write` -/

theorem dirtyMark_stable {ds bmlen : Nat} {bm : Nat → Nat}
    (hlt : ds / DBE_BITS < bmlen)
    (hset : bm (ds / DBE_BITS) &&& (1 <<< (ds % DBE_BITS)) ≠ 0) :
    ∀ (n db : Nat) (log : List Nat), dirtyMark ds bmlen db n bm log = some (bm, log) := by
  intro n
  induction n with
  | zero =>
    intro db log
    rfl
  | succ n ih =>
    intro db log
    show (if ds / DBE_BITS < bmlen then _ else _) = _
    rw [if_pos hlt, if_neg (by simpa using hset)]
    exact ih (db + 1) log

theorem dirtyMark_call {ds bmlen n : Nat} {bm : Nat → Nat} {log : List Nat}
    (hn : 0 < n) :
    dirtyMark ds bmlen ds n bm log =
      if ds / DBE_BITS < bmlen then
        some (if bm (ds / DBE_BITS) &&& (1 <<< (ds % DBE_BITS)) = 0 then
                (fun w => if w = ds / DBE_BITS
                          then bm w ||| (1 <<< (ds % DBE_BITS)) else bm w,
                 log ++ [ds])
              else (bm, log))
      else none := by
  obtain ⟨k, rfl⟩ : ∃ k, n = k + 1 := ⟨n - 1, by omega⟩
  show (if ds / DBE_BITS < bmlen then _ else _) = _
  by_cases hlt : ds / DBE_BITS < bmlen
  · rw [if_pos hlt, if_pos hlt]
    by_cases hbit : bm (ds / DBE_BITS) &&& (1 <<< (ds % DBE_BITS)) = 0
    · rw [if_pos (by simpa using hbit), if_pos hbit]
      refine dirtyMark_stable hlt ?_ k (ds + 1) (log ++ [ds])
      show (if ds / DBE_BITS = ds / DBE_BITS then _ else _) &&& _ ≠ 0
      rw [if_pos rfl]
      exact or_shift_and_ne _ _
    · rw [if_neg (by simpa using hbit), if_neg hbit]
      exact dirtyMark_stable hlt hbit k (ds + 1) log
  · rw [if_neg hlt, if_neg hlt]

theorem write_eq_ok {m : Mmu} {a : Nat} {buf : List Nat}
    (h1 : a + buf.length < USIZE)
    (h2 : a + buf.length ≤ m.perm_len)
    (h3 : permAnyClear m.permissions PERM_WRITE a buf.length = false)
    (h4 : a + buf.length ≤ m.mem_len)
    (h5 : a / DIRTY_BLOCK_SIZE / DBE_BITS < m.dirty_bitmap_len) :
    m.write a buf =
      ({ m with
          memory := fun i =>
            if a ≤ i ∧ i < a + buf.length then buf.getD (i - a) 0 else m.memory i
          dirty_bitmap :=
            if m.dirty_bitmap (a / DIRTY_BLOCK_SIZE / DBE_BITS) &&&
                (1 <<< (a / DIRTY_BLOCK_SIZE % DBE_BITS)) = 0 then
              fun w =>
                if w = a / DIRTY_BLOCK_SIZE / DBE_BITS
                then m.dirty_bitmap w ||| (1 <<< (a / DIRTY_BLOCK_SIZE % DBE_BITS))
                else m.dirty_bitmap w
            else m.dirty_bitmap
          dirty_indexes :=
            if m.dirty_bitmap (a / DIRTY_BLOCK_SIZE / DBE_BITS) &&&
                (1 <<< (a / DIRTY_BLOCK_SIZE % DBE_BITS)) = 0 then
              m.dirty_indexes ++ [a / DIRTY_BLOCK_SIZE]
            else m.dirty_indexes
          permissions := fun i =>
            if a ≤ i ∧ i < a + buf.length then m.permissions i ||| PERM_READ
            else m.permissions i },
       MRes.ok ()) := by
  have hn : 0 < (a + buf.length) / DIRTY_BLOCK_SIZE + 1 - a / DIRTY_BLOCK_SIZE := by
    have := Nat.div_le_div_right (c := DIRTY_BLOCK_SIZE) (Nat.le_add_right a buf.length)
    omega
  unfold Mmu.write
  rw [checked_add_of_lt h1]
  show (if a + buf.length ≤ m.perm_len then _ else _) = _
  rw [if_pos h2, Nat.add_sub_cancel_left, h3, if_neg Bool.false_ne_true,
      if_pos h4, dirtyMark_call hn, if_pos h5]
  by_cases hbit : m.dirty_bitmap (a / DIRTY_BLOCK_SIZE / DBE_BITS) &&&
      (1 <<< (a / DIRTY_BLOCK_SIZE % DBE_BITS)) = 0
  · rw [if_pos hbit, if_pos hbit, if_pos hbit]
  · rw [if_neg hbit, if_neg hbit, if_neg hbit]

theorem write_fault_overflow {m : Mmu} {a : Nat} {buf : List Nat}
    (h1 : ¬ a + buf.length < USIZE) :
    m.write a buf = (m, MRes.fault) := by
  unfold Mmu.write
  rw [checked_add_of_ge h1]

theorem write_fault_range {m : Mmu} {a : Nat} {buf : List Nat}
    (h1 : a + buf.length < USIZE) (h2 : ¬ a + buf.length ≤ m.perm_len) :
    m.write a buf = (m, MRes.fault) := by
  unfold Mmu.write
  rw [checked_add_of_lt h1]
  show (if a + buf.length ≤ m.perm_len then _ else _) = _
  rw [if_neg h2]

theorem write_fault_perm {m : Mmu} {a : Nat} {buf : List Nat}
    (h1 : a + buf.length < USIZE) (h2 : a + buf.length ≤ m.perm_len)
    (h3 : permAnyClear m.permissions PERM_WRITE a buf.length = true) :
    m.write a buf = (m, MRes.fault) := by
  unfold Mmu.write
  rw [checked_add_of_lt h1]
  show (if a + buf.length ≤ m.perm_len then _ else _) = _
  rw [if_pos h2, Nat.add_sub_cancel_left, h3, if_pos rfl]

theorem write_fault_mem {m : Mmu} {a : Nat} {buf : List Nat}
    (h1 : a + buf.length < USIZE) (h2 : a + buf.length ≤ m.perm_len)
    (h3 : permAnyClear m.permissions PERM_WRITE a buf.length = false)
    (h4 : ¬ a + buf.length ≤ m.mem_len) :
    m.write a buf = (m, MRes.fault) := by
  unfold Mmu.write
  rw [checked_add_of_lt h1]
  show (if a + buf.length ≤ m.perm_len then _ else _) = _
  rw [if_pos h2, Nat.add_sub_cancel_left, h3, if_neg Bool.false_ne_true, if_neg h4]

theorem write_eq_abort {m : Mmu} {a : Nat} {buf : List Nat}
    (h1 : a + buf.length < USIZE)
    (h2 : a + buf.length ≤ m.perm_len)
    (h3 : permAnyClear m.permissions PERM_WRITE a buf.length = false)
    (h4 : a + buf.length ≤ m.mem_len)
    (h5 : ¬ a / DIRTY_BLOCK_SIZE / DBE_BITS < m.dirty_bitmap_len) :
    m.write a buf =
      ({ m with
          memory := fun i =>
            if a ≤ i ∧ i < a + buf.length then buf.getD (i - a) 0 else m.memory i },
       MRes.abort) := by
  have hn : 0 < (a + buf.length) / DIRTY_BLOCK_SIZE + 1 - a / DIRTY_BLOCK_SIZE := by
    have := Nat.div_le_div_right (c := DIRTY_BLOCK_SIZE) (Nat.le_add_right a buf.length)
    omega
  unfold Mmu.write
  rw [checked_add_of_lt h1]
  show (if a + buf.length ≤ m.perm_len then _ else _) = _
  rw [if_pos h2, Nat.add_sub_cancel_left, h3, if_neg Bool.false_ne_true,
      if_pos h4, dirtyMark_call hn, if_neg h5]

theorem write_ok_conds {m : Mmu} {a : Nat} {buf : List Nat}
    (h : (m.write a buf).2 = MRes.ok ()) :
    a + buf.length < USIZE ∧ a + buf.length ≤ m.perm_len ∧
    permAnyClear m.permissions PERM_WRITE a buf.length = false ∧
    a + buf.length ≤ m.mem_len ∧
    a / DIRTY_BLOCK_SIZE / DBE_BITS < m.dirty_bitmap_len := by
  by_cases h1 : a + buf.length < USIZE
  · by_cases h2 : a + buf.length ≤ m.perm_len
    · cases h3 : permAnyClear m.permissions PERM_WRITE a buf.length
      · by_cases h4 : a + buf.length ≤ m.mem_len
        · by_cases h5 : a / DIRTY_BLOCK_SIZE / DBE_BITS < m.dirty_bitmap_len
          · exact ⟨h1, h2, rfl, h4, h5⟩
          · rw [write_eq_abort h1 h2 h3 h4 h5] at h
            cases h
        · rw [write_fault_mem h1 h2 h3 h4] at h
          cases h
      · rw [write_fault_perm h1 h2 h3] at h
        cases h
    · rw [write_fault_range h1 h2] at h
      cases h
  · rw [write_fault_overflow h1] at h
    cases h

theorem write_fault_fst {m : Mmu} {a : Nat} {buf : List Nat}
    (h : (m.write a buf).2 = MRes.fault) : (m.write a buf).1 = m := by
  by_cases h1 : a + buf.length < USIZE
  · by_cases h2 : a + buf.length ≤ m.perm_len
    · cases h3 : permAnyClear m.permissions PERM_WRITE a buf.length
      · by_cases h4 : a + buf.length ≤ m.mem_len
        · by_cases h5 : a / DIRTY_BLOCK_SIZE / DBE_BITS < m.dirty_bitmap_len
          · rw [write_eq_ok h1 h2 h3 h4 h5] at h
            cases h
          · rw [write_eq_abort h1 h2 h3 h4 h5] at h
            cases h
        · rw [write_fault_mem h1 h2 h3 h4]
      · rw [write_fault_perm h1 h2 h3]
    · rw [write_fault_range h1 h2]
  · rw [write_fault_overflow h1]

/-! ### Characterization of `read` -/

theorem read_eq_some {m : Mmu} {a len : Nat}
    (h1 : a + len < USIZE) (h2 : a + len ≤ m.perm_len)
    (h3 : permAnyClear m.permissions PERM_READ a len = false)
    (h4 : a + len ≤ m.mem_len) :
    m.read a len = some ((List.range len).map fun k => m.memory (a + k)) := by
  unfold Mmu.read
  rw [checked_add_of_lt h1]
  show (if a + len ≤ m.perm_len then _ else _) = _
  rw [if_pos h2, Nat.add_sub_cancel_left, h3, if_neg Bool.false_ne_true, if_pos h4]

theorem read_none_overflow {m : Mmu} {a len : Nat}
    (h1 : ¬ a + len < USIZE) : m.read a len = none := by
  unfold Mmu.read
  rw [checked_add_of_ge h1]

theorem read_none_range {m : Mmu} {a len : Nat}
    (h1 : a + len < USIZE) (h2 : ¬ a + len ≤ m.perm_len) :
    m.read a len = none := by
  unfold Mmu.read
  rw [checked_add_of_lt h1]
  show (if a + len ≤ m.perm_len then _ else _) = _
  rw [if_neg h2]

theorem read_none_perm {m : Mmu} {a len : Nat}
    (h1 : a + len < USIZE) (h2 : a + len ≤ m.perm_len)
    (h3 : permAnyClear m.permissions PERM_READ a len = true) :
    m.read a len = none := by
  unfold Mmu.read
  rw [checked_add_of_lt h1]
  show (if a + len ≤ m.perm_len then _ else _) = _
  rw [if_pos h2, Nat.add_sub_cancel_left, h3, if_pos rfl]

/-! ### Characterization of the reset loop and `reset` -/

theorem resetLoop_fields {other : Mmu} :
    ∀ {l : List Nat} {m m' : Mmu}, resetLoop other l m = some m' →
      m'.mem_len = m.mem_len ∧ m'.perm_len = m.perm_len ∧
      m'.dirty_bitmap_len = m.dirty_bitmap_len ∧ m'.alloc_base = m.alloc_base ∧
      m'.dirty_indexes = m.dirty_indexes := by
  intro l
  induction l with
  | nil =>
    intro m m' h
    cases h
    exact ⟨rfl, rfl, rfl, rfl, rfl⟩
  | cons j rest ih =>
    intro m m' h
    unfold resetLoop at h
    split at h
    · simpa using ih h
    · cases h

theorem resetLoop_mem_untouched {other : Mmu} {i : Nat} :
    ∀ {l : List Nat} {m m' : Mmu}, resetLoop other l m = some m' →
      (∀ idx ∈ l, i < idx * DIRTY_BLOCK_SIZE ∨ (idx + 1) * DIRTY_BLOCK_SIZE ≤ i) →
      m'.memory i = m.memory i ∧ m'.permissions i = m.permissions i := by
  intro l
  induction l with
  | nil =>
    intro m m' h _
    cases h
    exact ⟨rfl, rfl⟩
  | cons j rest ih =>
    intro m m' h hout
    unfold resetLoop at h
    split at h
    · obtain ⟨h1, h2⟩ := ih h fun k hk => hout k (List.mem_cons_of_mem _ hk)
      rw [h1, h2]
      have hj := hout j (List.mem_cons_self _ _)
      refine ⟨?_, ?_⟩
      · show (if j * DIRTY_BLOCK_SIZE ≤ i ∧ i < (j + 1) * DIRTY_BLOCK_SIZE
              then other.memory i else m.memory i) = m.memory i
        rw [if_neg (by omega)]
      · show (if j * DIRTY_BLOCK_SIZE ≤ i ∧ i < (j + 1) * DIRTY_BLOCK_SIZE
              then other.permissions i else m.permissions i) = m.permissions i
        rw [if_neg (by omega)]
    · cases h

theorem resetLoop_mem_covered {other : Mmu} {i idx : Nat}
    (hlo : idx * DIRTY_BLOCK_SIZE ≤ i) (hhi : i < (idx + 1) * DIRTY_BLOCK_SIZE) :
    ∀ {l : List Nat} {m m' : Mmu}, resetLoop other l m = some m' → idx ∈ l →
      m'.memory i = other.memory i ∧ m'.permissions i = other.permissions i := by
  intro l
  induction l with
  | nil =>
    intro m m' _ hmem
    cases hmem
  | cons j rest ih =>
    intro m m' h hmem
    unfold resetLoop at h
    split at h
    · by_cases hrest : idx ∈ rest
      · exact ih h hrest
      · have hji : j = idx := by
          rcases List.mem_cons.mp hmem with he | hr
          · exact he.symm
          · exact absurd hr hrest
        subst hji
        have hside : ∀ k ∈ rest,
            i < k * DIRTY_BLOCK_SIZE ∨ (k + 1) * DIRTY_BLOCK_SIZE ≤ i := by
          intro k hk
          by_cases hc : k * DIRTY_BLOCK_SIZE ≤ i ∧ i < (k + 1) * DIRTY_BLOCK_SIZE
          · exfalso
            have e1 : i / DIRTY_BLOCK_SIZE = k := Nat.div_eq_of_lt_le hc.1 hc.2
            have e2 : i / DIRTY_BLOCK_SIZE = j := Nat.div_eq_of_lt_le hlo hhi
            have : k = j := by omega
            exact hrest (this ▸ hk)
          · omega
        obtain ⟨h1, h2⟩ := resetLoop_mem_untouched h hside
        rw [h1, h2]
        refine ⟨?_, ?_⟩
        · show (if j * DIRTY_BLOCK_SIZE ≤ i ∧ i < (j + 1) * DIRTY_BLOCK_SIZE
                then other.memory i else m.memory i) = other.memory i
          rw [if_pos ⟨hlo, hhi⟩]
        · show (if j * DIRTY_BLOCK_SIZE ≤ i ∧ i < (j + 1) * DIRTY_BLOCK_SIZE
                then other.permissions i else m.permissions i) = other.permissions i
          rw [if_pos ⟨hlo, hhi⟩]
    · cases h

theorem resetLoop_bitmap_cases {other : Mmu} {w : Nat} :
    ∀ {l : List Nat} {m m' : Mmu}, resetLoop other l m = some m' →
      m'.dirty_bitmap w = 0 ∨ m'.dirty_bitmap w = m.dirty_bitmap w := by
  intro l
  induction l with
  | nil =>
    intro m m' h
    cases h
    exact Or.inr rfl
  | cons j rest ih =>
    intro m m' h
    unfold resetLoop at h
    split at h
    · rcases ih h with h0 | heq
      · exact Or.inl h0
      · rw [heq]
        show (if w = j / DBE_BITS then 0 else m.dirty_bitmap w) = 0 ∨
             (if w = j / DBE_BITS then 0 else m.dirty_bitmap w) = m.dirty_bitmap w
        by_cases hw : w = j / DBE_BITS
        · rw [if_pos hw]
          exact Or.inl rfl
        · rw [if_neg hw]
          exact Or.inr rfl
    · cases h

theorem resetLoop_bitmap_mem {other : Mmu} {idx : Nat} :
    ∀ {l : List Nat} {m m' : Mmu}, resetLoop other l m = some m' → idx ∈ l →
      m'.dirty_bitmap (idx / DBE_BITS) = 0 := by
  intro l
  induction l with
  | nil =>
    intro m m' _ hmem
    cases hmem
  | cons j rest ih =>
    intro m m' h hmem
    unfold resetLoop at h
    split at h
    · by_cases hrest : idx ∈ rest
      · exact ih h hrest
      · have hji : j = idx := by
          rcases List.mem_cons.mp hmem with he | hr
          · exact he.symm
          · exact absurd hr hrest
        subst hji
        rcases resetLoop_bitmap_cases h (w := j / DBE_BITS) with h0 | heq
        · exact h0
        · rw [heq]
          show (if j / DBE_BITS = j / DBE_BITS then 0 else _) = 0
          rw [if_pos rfl]
    · cases h

theorem reset_eq_some {m other m' : Mmu} (h : m.reset other = some m') :
    ∃ mr, resetLoop other m.dirty_indexes m = some mr ∧
      m' = { mr with dirty_indexes := [] } := by
  unfold Mmu.reset at h
  cases hr : resetLoop other m.dirty_indexes m with
  | none =>
    rw [hr] at h
    cases h
  | some mr =>
    rw [hr, Option.map_some'] at h
    cases h
    exact ⟨mr, rfl, rfl⟩

/-! ### State-shape case analyses for each mutating operation -/

theorem new_eq_some {size : Nat} {m : Mmu} (h : Mmu.new size = some m) :
    DIRTY_BLOCK_SIZE ≤ align size ∧
    m = { mem_len := align size, memory := fun _ => 0,
          perm_len := align size, permissions := fun _ => 0,
          dirty_indexes := [],
          dirty_bitmap_len := size / DIRTY_BLOCK_SIZE / DBE_BITS + 1,
          dirty_bitmap := fun _ => 0,
          alloc_base := 0 } := by
  unfold Mmu.new at h
  split at h
  · cases h
  · cases h
    exact ⟨by omega, rfl⟩

theorem set_permissions_fst_cases (m : Mmu) (a s p : Nat) :
    (m.set_permissions a s p).1 = m ∨
    ((m.set_permissions a s p).1 =
        { m with permissions := fun i =>
            if a ≤ i ∧ i < a + s then p else m.permissions i } ∧
      a + s < USIZE ∧ a + s ≤ m.perm_len) := by
  by_cases hc : a + s < USIZE ∧ a + s ≤ m.perm_len
  · right
    rw [set_permissions_eq_ok hc.1 hc.2]
    exact ⟨rfl, hc.1, hc.2⟩
  · left
    rw [set_permissions_eq_fault hc]

theorem allocate_fst_cases (m : Mmu) (s : Nat) :
    (m.allocate s).1 = m ∨
    ((m.allocate s).1 =
        { m with
            permissions := fun i =>
              if m.alloc_base ≤ i ∧ i < m.alloc_base + s then PERM_WRITE
              else m.permissions i
            alloc_base := m.alloc_base + align s } ∧
      m.alloc_base + align s ≤ m.mem_len) := by
  by_cases hc : m.alloc_base + align s < USIZE ∧ m.alloc_base + align s ≤ m.mem_len ∧
      m.alloc_base + s < USIZE ∧ m.alloc_base + s ≤ m.perm_len
  · right
    rw [allocate_eq_ok hc.1 hc.2.1 hc.2.2.1 hc.2.2.2]
    exact ⟨rfl, hc.2.1⟩
  · left
    rw [allocate_eq_fault hc]

theorem write_fst_cases (m : Mmu) (a : Nat) (buf : List Nat)
    (hna : (m.write a buf).2 ≠ MRes.abort) :
    (m.write a buf).1 = m ∨
    ((m.write a buf).1 =
        { m with
            memory := fun i =>
              if a ≤ i ∧ i < a + buf.length then buf.getD (i - a) 0 else m.memory i
            dirty_bitmap :=
              if m.dirty_bitmap (a / DIRTY_BLOCK_SIZE / DBE_BITS) &&&
                  (1 <<< (a / DIRTY_BLOCK_SIZE % DBE_BITS)) = 0 then
                fun w =>
                  if w = a / DIRTY_BLOCK_SIZE / DBE_BITS
                  then m.dirty_bitmap w ||| (1 <<< (a / DIRTY_BLOCK_SIZE % DBE_BITS))
                  else m.dirty_bitmap w
              else m.dirty_bitmap
            dirty_indexes :=
              if m.dirty_bitmap (a / DIRTY_BLOCK_SIZE / DBE_BITS) &&&
                  (1 <<< (a / DIRTY_BLOCK_SIZE % DBE_BITS)) = 0 then
                m.dirty_indexes ++ [a / DIRTY_BLOCK_SIZE]
              else m.dirty_indexes
            permissions := fun i =>
              if a ≤ i ∧ i < a + buf.length then m.permissions i ||| PERM_READ
              else m.permissions i } ∧
      a / DIRTY_BLOCK_SIZE / DBE_BITS < m.dirty_bitmap_len) := by
  by_cases h1 : a + buf.length < USIZE
  · by_cases h2 : a + buf.length ≤ m.perm_len
    · cases h3 : permAnyClear m.permissions PERM_WRITE a buf.length
      · by_cases h4 : a + buf.length ≤ m.mem_len
        · by_cases h5 : a / DIRTY_BLOCK_SIZE / DBE_BITS < m.dirty_bitmap_len
          · right
            rw [write_eq_ok h1 h2 h3 h4 h5]
            exact ⟨rfl, h5⟩
          · exact absurd (by rw [write_eq_abort h1 h2 h3 h4 h5]) hna
        · left
          rw [write_fault_mem h1 h2 h3 h4]
      · left
        rw [write_fault_perm h1 h2 h3]
    · left
      rw [write_fault_range h1 h2]
  · left
    rw [write_fault_overflow h1]

/-! ### Preservation of the structural invariant -/

theorem new_inv {size : Nat} {m : Mmu} (h : Mmu.new size = some m) : MmuInv m := by
  obtain ⟨hsz, rfl⟩ := new_eq_some h
  refine ⟨rfl, align_le_mask size, Nat.zero_le _, fun w _ => rfl,
    fun w => Nat.two_pow_pos _, fun i => ?_⟩
  simp [dirtyBit, Nat.zero_testBit]

theorem fork_inv {m : Mmu} (h : MmuInv m) : MmuInv m.fork := by
  obtain ⟨h1, h2, h3, _, _, _⟩ := h
  refine ⟨h1, h2, h3, fun w _ => rfl, fun w => Nat.two_pow_pos _, fun i => ?_⟩
  simp [Mmu.fork, dirtyBit, Nat.zero_testBit]

theorem set_permissions_inv {m : Mmu} {a s p : Nat} (h : MmuInv m) :
    MmuInv (m.set_permissions a s p).1 := by
  rcases set_permissions_fst_cases m a s p with he | ⟨he, _⟩ <;> rw [he]
  · exact h
  · exact h

theorem allocate_inv {m : Mmu} {s : Nat} (h : MmuInv m) : MmuInv (m.allocate s).1 := by
  rcases allocate_fst_cases m s with he | ⟨he, hle⟩ <;> rw [he]
  · exact h
  · obtain ⟨h1, h2, h3, h4, h5, h6⟩ := h
    exact ⟨h1, h2, hle, h4, h5, h6⟩

theorem write_inv {m : Mmu} {a : Nat} {buf : List Nat}
    (h : MmuInv m) (hna : (m.write a buf).2 ≠ MRes.abort) :
    MmuInv (m.write a buf).1 := by
  rcases write_fst_cases m a buf hna with he | ⟨he, h5⟩ <;> rw [he]
  · exact h
  · obtain ⟨h1, h2, h3, h4, hlt, hsync⟩ := h
    by_cases hbit : m.dirty_bitmap (a / DIRTY_BLOCK_SIZE / DBE_BITS) &&&
        (1 <<< (a / DIRTY_BLOCK_SIZE % DBE_BITS)) = 0
    · rw [if_pos hbit, if_pos hbit]
      refine ⟨h1, h2, h3, ?_, ?_, ?_⟩
      · intro w hw
        have hw' : m.dirty_bitmap_len ≤ w := hw
        show (if w = a / DIRTY_BLOCK_SIZE / DBE_BITS then _ else m.dirty_bitmap w) = 0
        rw [if_neg (by omega)]
        exact h4 w hw'
      · intro w
        show (if w = a / DIRTY_BLOCK_SIZE / DBE_BITS
              then m.dirty_bitmap w ||| (1 <<< (a / DIRTY_BLOCK_SIZE % DBE_BITS))
              else m.dirty_bitmap w) < 2 ^ DBE_BITS
        by_cases hw : w = a / DIRTY_BLOCK_SIZE / DBE_BITS
        · rw [if_pos hw, one_shiftLeft_eq]
          exact Nat.or_lt_two_pow (hlt w)
            (Nat.pow_lt_pow_right (by norm_num)
              (Nat.mod_lt _ (by norm_num [DBE_BITS])))
        · rw [if_neg hw]
          exact hlt w
      · intro i
        rw [List.mem_append, List.mem_singleton]
        show (if i / DBE_BITS = a / DIRTY_BLOCK_SIZE / DBE_BITS
              then m.dirty_bitmap (i / DBE_BITS) |||
                (1 <<< (a / DIRTY_BLOCK_SIZE % DBE_BITS))
              else m.dirty_bitmap (i / DBE_BITS)).testBit (i % DBE_BITS) = true ↔ _
        by_cases hw : i / DBE_BITS = a / DIRTY_BLOCK_SIZE / DBE_BITS
        · rw [if_pos hw, testBit_or_shift]
          by_cases hieq : i = a / DIRTY_BLOCK_SIZE
          · subst hieq
            simp
          · have hne : ¬ a / DIRTY_BLOCK_SIZE % DBE_BITS = i % DBE_BITS := by
              intro hmod
              apply hieq
              have hD : DBE_BITS = 128 := rfl
              rw [hD] at hw hmod
              have d1 := Nat.div_add_mod i 128
              have d2 := Nat.div_add_mod (a / DIRTY_BLOCK_SIZE) 128
              omega
            rw [decide_eq_false hne, Bool.or_false]
            rw [show ((m.dirty_bitmap (i / DBE_BITS)).testBit (i % DBE_BITS) = true) =
                  (dirtyBit m i = true) from rfl, hsync i]
            exact (or_iff_left hieq).symm
        · rw [if_neg hw]
          have hne : ¬ i = a / DIRTY_BLOCK_SIZE := fun he' => hw (by rw [he'])
          rw [show ((m.dirty_bitmap (i / DBE_BITS)).testBit (i % DBE_BITS) = true) =
                (dirtyBit m i = true) from rfl, hsync i]
          exact (or_iff_left hne).symm
    · rw [if_neg hbit, if_neg hbit]
      exact ⟨h1, h2, h3, h4, hlt, hsync⟩

theorem reset_inv {m other m' : Mmu} (h : MmuInv m) (hr : m.reset other = some m') :
    MmuInv m' := by
  obtain ⟨mr, hloop, rfl⟩ := reset_eq_some hr
  obtain ⟨f1, f2, f3, f4, f5⟩ := resetLoop_fields hloop
  obtain ⟨h1, h2, h3, h4, hlt, hsync⟩ := h
  refine ⟨?_, ?_, ?_, ?_, ?_, ?_⟩
  · show mr.mem_len = mr.perm_len
    rw [f1, f2]
    exact h1
  · show mr.mem_len ≤ _
    rw [f1]
    exact h2
  · show mr.alloc_base ≤ mr.mem_len
    rw [f4, f1]
    exact h3
  · intro w hw
    show mr.dirty_bitmap w = 0
    rcases resetLoop_bitmap_cases hloop (w := w) with h0 | he
    · exact h0
    · rw [he]
      refine h4 w ?_
      have hw' : mr.dirty_bitmap_len ≤ w := hw
      rwa [f3] at hw'
  · intro w
    show mr.dirty_bitmap w < _
    rcases resetLoop_bitmap_cases hloop (w := w) with h0 | he
    · rw [h0]
      exact Nat.two_pow_pos _
    · rw [he]
      exact hlt w
  · intro i
    constructor
    · intro hbit
      exfalso
      have hbit' : (mr.dirty_bitmap (i / DBE_BITS)).testBit (i % DBE_BITS) = true := hbit
      rcases resetLoop_bitmap_cases hloop (w := i / DBE_BITS) with h0 | he
      · rw [h0] at hbit'
        simp [Nat.zero_testBit] at hbit'
      · rw [he] at hbit'
        have hmem : i ∈ m.dirty_indexes := (hsync i).mp hbit'
        have hz := resetLoop_bitmap_mem hloop hmem
        rw [hz] at he
        rw [← he] at hbit'
        simp [Nat.zero_testBit] at hbit'
    · intro hmem
      cases hmem

theorem reachable_inv {m : Mmu} (h : Reachable m) : MmuInv m := by
  induction h with
  | new size m h => exact new_inv h
  | fork m _ ih => exact fork_inv ih
  | allocate m size _ ih => exact allocate_inv ih
  | set_permissions m addr size perm _ ih => exact set_permissions_inv ih
  | write m addr buf _ hna ih => exact write_inv ih hna
  | reset m other m' _ hr ih => exact reset_inv ih hr

theorem steps_cursor_len {m m' : Mmu} (h : Steps m m') :
    m.alloc_base ≤ m'.alloc_base ∧ m'.mem_len = m.mem_len ∧ m'.perm_len = m.perm_len := by
  induction h with
  | refl => exact ⟨le_refl _, rfl, rfl⟩
  | fork m2 _ ih => exact ⟨ih.1, ih.2.1, ih.2.2⟩
  | allocate m2 s _ ih =>
    rcases allocate_fst_cases m2 s with he | ⟨he, _⟩ <;> rw [he]
    · exact ih
    · exact ⟨le_trans ih.1 (Nat.le_add_right _ _), ih.2.1, ih.2.2⟩
  | set_permissions m2 a s p _ ih =>
    rcases set_permissions_fst_cases m2 a s p with he | ⟨he, _⟩ <;> rw [he]
    · exact ih
    · exact ih
  | write m2 a buf _ hna ih =>
    rcases write_fst_cases m2 a buf hna with he | ⟨he, _⟩ <;> rw [he]
    · exact ih
    · exact ih
  | reset m2 other m3 _ hr ih =>
    obtain ⟨mr, hloop, rfl⟩ := reset_eq_some hr
    obtain ⟨f1, f2, _, f4, _⟩ := resetLoop_fields hloop
    refine ⟨?_, ?_, ?_⟩
    · show m.alloc_base ≤ mr.alloc_base
      rw [f4]
      exact ih.1
    · show mr.mem_len = m.mem_len
      rw [f1]
      exact ih.2.1
    · show mr.perm_len = m.perm_len
      rw [f2]
      exact ih.2.2

/-! ### Bridge lemmas for the claim theorems -/

theorem write_ok_fst {m : Mmu} {a : Nat} {buf : List Nat}
    (h1 : a + buf.length < USIZE)
    (h2 : a + buf.length ≤ m.perm_len)
    (h3 : permAnyClear m.permissions PERM_WRITE a buf.length = false)
    (h4 : a + buf.length ≤ m.mem_len)
    (h5 : a / DIRTY_BLOCK_SIZE / DBE_BITS < m.dirty_bitmap_len) :
    (m.write a buf).1 =
      { m with
          memory := fun i =>
            if a ≤ i ∧ i < a + buf.length then buf.getD (i - a) 0 else m.memory i
          dirty_bitmap :=
            if m.dirty_bitmap (a / DIRTY_BLOCK_SIZE / DBE_BITS) &&&
                (1 <<< (a / DIRTY_BLOCK_SIZE % DBE_BITS)) = 0 then
              fun w =>
                if w = a / DIRTY_BLOCK_SIZE / DBE_BITS
                then m.dirty_bitmap w ||| (1 <<< (a / DIRTY_BLOCK_SIZE % DBE_BITS))
                else m.dirty_bitmap w
            else m.dirty_bitmap
          dirty_indexes :=
            if m.dirty_bitmap (a / DIRTY_BLOCK_SIZE / DBE_BITS) &&&
                (1 <<< (a / DIRTY_BLOCK_SIZE % DBE_BITS)) = 0 then
              m.dirty_indexes ++ [a / DIRTY_BLOCK_SIZE]
            else m.dirty_indexes
          permissions := fun i =>
            if a ≤ i ∧ i < a + buf.length then m.permissions i ||| PERM_READ
            else m.permissions i } := by
  rw [write_eq_ok h1 h2 h3 h4 h5]

theorem allocate_ok_fst {m : Mmu} {s : Nat}
    (h1 : m.alloc_base + align s < USIZE)
    (h2 : m.alloc_base + align s ≤ m.mem_len)
    (h3 : m.alloc_base + s < USIZE)
    (h4 : m.alloc_base + s ≤ m.perm_len) :
    (m.allocate s).1 =
      { m with
          permissions := fun i =>
            if m.alloc_base ≤ i ∧ i < m.alloc_base + s then PERM_WRITE
            else m.permissions i
          alloc_base := m.alloc_base + align s } := by
  rw [allocate_eq_ok h1 h2 h3 h4]

theorem usize_val : USIZE = 18446744073709551616 := by norm_num [USIZE]

theorem alloc_ok_bounds {m : Mmu} {s addr : Nat}
    (hre : Reachable m) (h : (m.allocate s).2 = MRes.ok addr) :
    addr = m.alloc_base ∧ addr + s ≤ m.mem_len ∧
    addr + s ≤ (m.allocate s).1.alloc_base := by
  obtain ⟨hv, h1, h2, h3, h4⟩ := allocate_ok_conds h
  obtain ⟨i1, i2, _, _, _, _⟩ := reachable_inv hre
  have hsle : s ≤ align s := by
    refine le_align ?_
    have hA : ALIGNMENT = 15 := rfl
    have hU := usize_val
    omega
  have hcur : (m.allocate s).1.alloc_base = m.alloc_base + align s := by
    rw [allocate_ok_fst h1 h2 h3 h4]
  subst hv
  refine ⟨rfl, by omega, ?_⟩
  rw [hcur]
  omega

/-! ### Claim theorems -/

/-- C1: the code violates this claim.  On an 8192-byte space with every byte
writable, the 10-byte write at address 4090 succeeds and spans dirty blocks 0
and 1 (its end 4100 lies in block 1), block 1's bit is clear beforehand, yet
after the write block 1 is neither set in the dirty bitmap nor appended to the
dirty index log: the loop re-reads block 0's bit for every block, so only the
first intersected block is marked.  Only `[0]` is logged. -/
theorem c1_write_multi_block_marking_bug_eval :
    (mmu8192a.write 4090 (List.replicate 10 7)).2 = MRes.ok () ∧
    4090 / DIRTY_BLOCK_SIZE = 0 ∧ (4090 + 10) / DIRTY_BLOCK_SIZE = 1 ∧
    4090 + 10 > 1 * DIRTY_BLOCK_SIZE ∧
    dirtyBit mmu8192a 1 = false ∧
    dirtyBit mmu8192w 1 = false ∧
    1 ∉ mmu8192w.dirty_indexes ∧
    mmu8192w.dirty_indexes = [0] ∧
    dirtyBit mmu8192w 0 = true := by
  decide

/-- C4 counterexample: a requested capacity of 5000 bytes yields buffers of
length 5008 = `align 5000`, which is not a multiple of the 4096-byte dirty
block size — construction rounds up to the 16-byte allocation alignment
only. -/
theorem c4_len_not_block_multiple :
    Mmu.new 5000 = some mmu5000 ∧
    mmu5000.mem_len = 5008 ∧ mmu5000.perm_len = 5008 ∧
    mmu5000.mem_len % DIRTY_BLOCK_SIZE ≠ 0 := by
  refine ⟨rfl, by decide, by decide, by decide⟩

/-- C4 (amended): `Mmu::new` produces memory and permission buffers of equal
length `align size` (the requested capacity rounded up to the 16-byte
allocation alignment, not to the dirty-block size), construction requires
that length to be at least one dirty block, and no operation ever changes
either buffer length. -/
theorem c4_buffer_lengths :
    (∀ size m, Mmu.new size = some m →
        m.mem_len = m.perm_len ∧ m.mem_len = align size ∧
        DIRTY_BLOCK_SIZE ≤ m.mem_len) ∧
    (∀ m : Mmu, m.fork.mem_len = m.mem_len ∧ m.fork.perm_len = m.perm_len) ∧
    (∀ (m : Mmu) (s : Nat), (m.allocate s).1.mem_len = m.mem_len ∧
        (m.allocate s).1.perm_len = m.perm_len) ∧
    (∀ (m : Mmu) (a s p : Nat),
        (m.set_permissions a s p).1.mem_len = m.mem_len ∧
        (m.set_permissions a s p).1.perm_len = m.perm_len) ∧
    (∀ (m : Mmu) (a : Nat) (buf : List Nat),
        (m.write a buf).1.mem_len = m.mem_len ∧
        (m.write a buf).1.perm_len = m.perm_len) ∧
    (∀ m b m' : Mmu, m.reset b = some m' →
        m'.mem_len = m.mem_len ∧ m'.perm_len = m.perm_len) := by
  refine ⟨?_, ?_, ?_, ?_, ?_, ?_⟩
  · intro size m h
    obtain ⟨hsz, rfl⟩ := new_eq_some h
    exact ⟨rfl, rfl, hsz⟩
  · intro m
    exact ⟨rfl, rfl⟩
  · intro m s
    rcases allocate_fst_cases m s with he | ⟨he, _⟩ <;> rw [he] <;> exact ⟨rfl, rfl⟩
  · intro m a s p
    rcases set_permissions_fst_cases m a s p with he | ⟨he, _⟩ <;> rw [he] <;>
      exact ⟨rfl, rfl⟩
  · intro m a buf
    by_cases h1 : a + buf.length < USIZE
    · by_cases h2 : a + buf.length ≤ m.perm_len
      · cases h3 : permAnyClear m.permissions PERM_WRITE a buf.length
        · by_cases h4 : a + buf.length ≤ m.mem_len
          · by_cases h5 : a / DIRTY_BLOCK_SIZE / DBE_BITS < m.dirty_bitmap_len
            · rw [write_eq_ok h1 h2 h3 h4 h5]
              exact ⟨rfl, rfl⟩
            · rw [write_eq_abort h1 h2 h3 h4 h5]
              exact ⟨rfl, rfl⟩
          · rw [write_fault_mem h1 h2 h3 h4]
            exact ⟨rfl, rfl⟩
        · rw [write_fault_perm h1 h2 h3]
          exact ⟨rfl, rfl⟩
      · rw [write_fault_range h1 h2]
        exact ⟨rfl, rfl⟩
    · rw [write_fault_overflow h1]
      exact ⟨rfl, rfl⟩
  · intro m b m' h
    obtain ⟨mr, hloop, rfl⟩ := reset_eq_some h
    obtain ⟨f1, f2, _, _, _⟩ := resetLoop_fields hloop
    exact ⟨f1, f2⟩

/-- C4 witness: the amended statement instantiated at a concrete
construction. -/
theorem c4_buffer_lengths_witness :
    mmu5000.mem_len = mmu5000.perm_len ∧ mmu5000.mem_len = align 5000 ∧
    DIRTY_BLOCK_SIZE ≤ mmu5000.mem_len :=
  c4_buffer_lengths.1 5000 mmu5000 rfl

/-- C5 counterexample: on a fresh 4096-byte space, the one-byte write at
address 0 is in bounds (the permission buffer is 4096 bytes long) but faults
for lack of `PERM_WRITE`, while the one-byte write at address 4096 is out of
bounds; both return the very same failure value `None` — the two error cases
do not yield different result values. -/
theorem c5_perm_and_oob_same_value :
    (0 + 1 ≤ mmu4096.perm_len ∧ mmu4096.permissions 0 &&& PERM_WRITE = 0) ∧
    ¬ 4096 + 1 ≤ mmu4096.perm_len ∧
    (mmu4096.write 0 [1]).2 = MRes.fault ∧
    (mmu4096.write 4096 [1]).2 = MRes.fault ∧
    (mmu4096.write 0 [1]).2 = (mmu4096.write 4096 [1]).2 := by
  decide

/-- C5 (amended): a read or write that is in bounds but lacks the required
permission bit on some byte, and a read or write whose range falls outside
the permission buffer, both fail with the same single failure value (`None`
in the source, `MRes.fault` respectively `none` here); the API does not
distinguish permission faults from out-of-bounds. -/
theorem c5_single_failure_value :
    (∀ (m : Mmu) (a : Nat) (buf : List Nat),
        a + buf.length < USIZE → a + buf.length ≤ m.perm_len →
        permAnyClear m.permissions PERM_WRITE a buf.length = true →
        (m.write a buf).2 = MRes.fault) ∧
    (∀ (m : Mmu) (a : Nat) (buf : List Nat),
        ¬ a + buf.length ≤ m.perm_len → (m.write a buf).2 = MRes.fault) ∧
    (∀ (m : Mmu) (a len : Nat),
        a + len < USIZE → a + len ≤ m.perm_len →
        permAnyClear m.permissions PERM_READ a len = true →
        m.read a len = none) ∧
    (∀ (m : Mmu) (a len : Nat),
        ¬ a + len ≤ m.perm_len → m.read a len = none) := by
  refine ⟨?_, ?_, ?_, ?_⟩
  · intro m a buf h1 h2 h3
    rw [write_fault_perm h1 h2 h3]
  · intro m a buf h2
    by_cases h1 : a + buf.length < USIZE
    · rw [write_fault_range h1 h2]
    · rw [write_fault_overflow h1]
  · intro m a len h1 h2 h3
    exact read_none_perm h1 h2 h3
  · intro m a len h2
    by_cases h1 : a + len < USIZE
    · exact read_none_range h1 h2
    · exact read_none_overflow h1

/-- C5 witness: the amended statement instantiated at concrete inputs: a
permission-lacking in-bounds write and an out-of-bounds write. -/
theorem c5_single_failure_value_witness :
    (mmu4096.write 0 [1]).2 = MRes.fault ∧ (mmu4096.write 4096 [1]).2 = MRes.fault :=
  ⟨c5_single_failure_value.1 mmu4096 0 [1] (by decide) (by decide) (by decide),
   c5_single_failure_value.2.1 mmu4096 4096 [1] (by decide)⟩

/-- C8: if the allocation cursor plus the aligned size exceeds the buffer
length, or the checked addition overflows, `allocate` fails with `None`
(`OutOfMemory`) and the entire state — cursor, memory, permissions and dirty
state — is unchanged. -/
theorem c8_allocate_oom_unchanged {m : Mmu} {s : Nat}
    (h : USIZE ≤ m.alloc_base + align s ∨ m.mem_len < m.alloc_base + align s) :
    (m.allocate s).2 = MRes.fault ∧ (m.allocate s).1 = m := by
  have he : m.allocate s = (m, MRes.fault) := by
    rcases h with h | h
    · exact allocate_eq_fault fun hc => absurd hc.1 (Nat.not_lt.mpr h)
    · exact allocate_eq_fault fun hc => absurd hc.2.1 (Nat.not_le.mpr h)
  rw [he]
  exact ⟨rfl, rfl⟩

/-- C8 witness: allocating 4097 bytes from a fresh 4096-byte space exceeds
capacity after alignment and leaves the state untouched. -/
theorem c8_allocate_oom_unchanged_witness :
    mmu4096.mem_len < mmu4096.alloc_base + align 4097 ∧
    (mmu4096.allocate 4097).2 = MRes.fault ∧ (mmu4096.allocate 4097).1 = mmu4096 :=
  ⟨by decide, c8_allocate_oom_unchanged (Or.inr (by decide))⟩

/-- C10: whenever `write` or `set_permissions` returns the failure value
`None` — from address-arithmetic overflow, an out-of-bounds range, or a
missing permission bit — the returned state is exactly the input state
(`read` takes `&self` in the source and by construction has no state
output). -/
theorem c10_fault_leaves_state_unchanged :
    (∀ (m : Mmu) (a : Nat) (buf : List Nat),
        (m.write a buf).2 = MRes.fault → (m.write a buf).1 = m) ∧
    (∀ (m : Mmu) (a s p : Nat),
        (m.set_permissions a s p).2 = MRes.fault → (m.set_permissions a s p).1 = m) := by
  constructor
  · intro m a buf h
    exact write_fault_fst h
  · intro m a s p h
    rcases set_permissions_fst_cases m a s p with he | ⟨he, hc1, hc2⟩
    · exact he
    · rw [set_permissions_eq_ok hc1 hc2] at h
      cases h

/-- C10 witness: an out-of-bounds write on a concrete space faults and
returns the state unchanged. -/
theorem c10_fault_leaves_state_unchanged_witness :
    (mmu4096.write 4096 [1]).2 = MRes.fault ∧ (mmu4096.write 4096 [1]).1 = mmu4096 :=
  ⟨by decide, c10_fault_leaves_state_unchanged.1 mmu4096 4096 [1] (by decide)⟩

/-- C3: in every reachable state — any sequence of `allocate`,
`set_permissions`, `write`, `fork`, `reset` from construction (`read` is
non-mutating) — the dirty-bitmap bit of block `i` is set exactly when `i`
appears in the dirty index log.  Despite the marking bug, a push to the log
only ever happens together with setting the corresponding bit, so the two
stay in sync. -/
theorem c3_bitmap_log_sync {m : Mmu} (h : Reachable m) :
    ∀ i, dirtyBit m i = true ↔ i ∈ m.dirty_indexes :=
  (reachable_inv h).2.2.2.2.2

/-- C3 witness: the synchronization instantiated on a concrete reachable
state with one dirtied block. -/
theorem c3_bitmap_log_sync_witness :
    (dirtyBit mmu4096w 0 = true ↔ 0 ∈ mmu4096w.dirty_indexes) ∧
    (dirtyBit mmu4096w 1 = true ↔ 1 ∈ mmu4096w.dirty_indexes) :=
  ⟨c3_bitmap_log_sync
      (Reachable.write mmu4096f 0 [1, 2, 3]
        (Reachable.fork mmu4096a
          (Reachable.allocate mmu4096 64 (Reachable.new 4096 mmu4096 rfl)))
        (by decide)) 0,
   c3_bitmap_log_sync
      (Reachable.write mmu4096f 0 [1, 2, 3]
        (Reachable.fork mmu4096a
          (Reachable.allocate mmu4096 64 (Reachable.new 4096 mmu4096 rfl)))
        (by decide)) 1⟩

/-- C6: a region returned by a successful `allocate(n)` (n ≥ 1) is marked
write-only — `PERM_WRITE` set and `PERM_READ` clear on every byte — and an
immediate read of any single byte of the region fails, because `read`
requires `PERM_READ` on every byte. -/
theorem c6_uninitialized_read_faults {m : Mmu} {n addr : Nat}
    (hn : 1 ≤ n) (h : (m.allocate n).2 = MRes.ok addr) :
    (∀ i, i < n →
        (m.allocate n).1.permissions (addr + i) = PERM_WRITE ∧
        (m.allocate n).1.permissions (addr + i) &&& PERM_WRITE ≠ 0 ∧
        (m.allocate n).1.permissions (addr + i) &&& PERM_READ = 0) ∧
    (∀ i, i < n → (m.allocate n).1.read (addr + i) 1 = none) := by
  obtain ⟨hv, h1, h2, h3, h4⟩ := allocate_ok_conds h
  subst hv
  have hfst := allocate_ok_fst h1 h2 h3 h4
  have hperm : ∀ i, i < n →
      (m.allocate n).1.permissions (m.alloc_base + i) = PERM_WRITE := by
    intro i hi
    rw [hfst]
    show (if m.alloc_base ≤ m.alloc_base + i ∧ m.alloc_base + i < m.alloc_base + n
          then PERM_WRITE else m.permissions (m.alloc_base + i)) = PERM_WRITE
    rw [if_pos ⟨by omega, by omega⟩]
  refine ⟨fun i hi => ⟨hperm i hi, ?_, ?_⟩, fun i hi => ?_⟩
  · rw [hperm i hi]
    decide
  · rw [hperm i hi]
    decide
  · refine read_none_perm (by omega) ?_ ?_
    · rw [hfst]
      show m.alloc_base + i + 1 ≤ m.perm_len
      omega
    · rw [permAnyClear_succ, hperm i hi]
      rfl

/-- C6 witness: allocate 64 bytes on a fresh space and read byte 0 before any
write — the read faults. -/
theorem c6_uninitialized_read_faults_witness :
    (mmu4096.allocate 64).2 = MRes.ok 0 ∧
    (mmu4096.allocate 64).1.read (0 + 0) 1 = none :=
  ⟨by decide,
   (c6_uninitialized_read_faults (by decide) (by decide)).2 0 (by decide)⟩

theorem read_mk_eq_some {len_m len_p bl ab : Nat} {mem perms : Nat → Nat}
    {di : List Nat} {bm : Nat → Nat} {a L : Nat}
    (h1 : a + L < USIZE) (h2 : a + L ≤ len_p)
    (h3 : permAnyClear perms PERM_READ a L = false)
    (h4 : a + L ≤ len_m) :
    Mmu.read ⟨len_m, mem, len_p, perms, di, bl, bm, ab⟩ a L =
      some ((List.range L).map fun k => mem (a + k)) :=
  read_eq_some h1 h2 h3 h4

/-- C7: after a successful `write(addr, buf)`, an immediate
`read(addr, len(buf))` succeeds and returns exactly the written bytes —
`write` or-s `PERM_READ` onto every byte of the range. -/
theorem c7_write_read_roundtrip {m : Mmu} {a : Nat} {buf : List Nat}
    (h : (m.write a buf).2 = MRes.ok ()) :
    (m.write a buf).1.read a buf.length = some buf := by
  obtain ⟨h1, h2, h3, h4, h5⟩ := write_ok_conds h
  rw [write_ok_fst h1 h2 h3 h4 h5]
  have hclear : permAnyClear
      (fun i => if a ≤ i ∧ i < a + buf.length
                then m.permissions i ||| PERM_READ else m.permissions i)
      PERM_READ a buf.length = false := by
    refine (permAnyClear_eq_false_iff _ _ _ _).mpr ?_
    intro k hk
    show (if a ≤ a + k ∧ a + k < a + buf.length
          then m.permissions (a + k) ||| PERM_READ
          else m.permissions (a + k)) &&& PERM_READ ≠ 0
    rw [if_pos ⟨by omega, by omega⟩]
    exact or_shift_and_ne (m.permissions (a + k)) 1
  rw [read_mk_eq_some h1 h2 hclear h4]
  congr 1
  refine List.ext_getElem (by simp) ?_
  intro k hk1 hk2
  simp only [List.getElem_map, List.getElem_range]
  rw [if_pos (⟨by omega, by omega⟩ : a ≤ a + k ∧ a + k < a + buf.length),
      show a + k - a = k by omega,
      List.getD_eq_getElem _ _ hk2]

/-- C7 witness: write three bytes at address 0 of an allocated region and
read them straight back. -/
theorem c7_write_read_roundtrip_witness :
    (mmu4096a.write 0 [5, 6, 7]).2 = MRes.ok () ∧
    (mmu4096a.write 0 [5, 6, 7]).1.read 0 3 = some [5, 6, 7] :=
  ⟨by decide, c7_write_read_roundtrip (by decide)⟩

/-- C9: every successful allocation returns the current cursor, its range
`[addr, addr + n)` lies within the buffer and ends at or before the advanced
cursor; the cursor never decreases under any later operation and never
exceeds the (constant) buffer length in any reachable state; consequently the
range of any earlier successful allocation ends at or before the address of
any later one — distinct allocations are pairwise disjoint. -/
theorem c9_allocation_bounds_disjoint :
    (∀ (m : Mmu) (s addr : Nat), Reachable m → (m.allocate s).2 = MRes.ok addr →
        addr = m.alloc_base ∧ addr + s ≤ m.mem_len ∧
        addr + s ≤ (m.allocate s).1.alloc_base) ∧
    (∀ m m' : Mmu, Steps m m' →
        m.alloc_base ≤ m'.alloc_base ∧ m'.mem_len = m.mem_len) ∧
    (∀ m : Mmu, Reachable m → m.alloc_base ≤ m.mem_len) ∧
    (∀ (m m' : Mmu) (s1 s2 a1 a2 : Nat), Reachable m →
        (m.allocate s1).2 = MRes.ok a1 → Steps (m.allocate s1).1 m' →
        (m'.allocate s2).2 = MRes.ok a2 → a1 + s1 ≤ a2) := by
  refine ⟨fun m s addr hre h => alloc_ok_bounds hre h,
          fun m m' h => ⟨(steps_cursor_len h).1, (steps_cursor_len h).2.1⟩,
          fun m hre => (reachable_inv hre).2.2.1, ?_⟩
  intro m m' s1 s2 a1 a2 hre h1 hst h2
  have hb := alloc_ok_bounds hre h1
  have hmono := (steps_cursor_len hst).1
  have ha2 := (allocate_ok_conds h2).1
  omega

/-- C9 witness: two consecutive 16-byte allocations on a fresh space return
0 and 16: the first range `[0, 16)` ends where the second begins. -/
theorem c9_allocation_bounds_disjoint_witness :
    (mmu4096.allocate 16).2 = MRes.ok 0 ∧
    ((mmu4096.allocate 16).1.allocate 16).2 = MRes.ok 16 ∧
    0 + 16 ≤ 16 :=
  ⟨by decide, by decide,
   c9_allocation_bounds_disjoint.2.2.2 mmu4096 (mmu4096.allocate 16).1 16 16 0 16
     (Reachable.new 4096 mmu4096 rfl) (by decide) (Steps.refl _) (by decide)⟩

/-- C2: after a successful `reset(b)` against a baseline of the same
capacity, every byte (memory and permission) of every block in the dirty
index log equals the baseline's, every byte outside all logged blocks is
exactly as before the reset, the log is empty, the dirty bitmap is all zeros,
and the allocation cursor is unchanged.  The all-zeros conclusion needs the
bitmap→log half of the synchronization invariant together with the 128-bit
word bound; both hold in every reachable state (see `reachable_inv`). -/
theorem c2_reset_restores_dirty_blocks (m b m' : Mmu)
    (hlen : b.mem_len = m.mem_len ∧ b.perm_len = m.perm_len)
    (hword : ∀ w, w < m.dirty_bitmap_len → m.dirty_bitmap w < 2 ^ DBE_BITS)
    (hbits : ∀ w, w < m.dirty_bitmap_len → ∀ t, t < DBE_BITS →
        (m.dirty_bitmap w).testBit t = true → w * DBE_BITS + t ∈ m.dirty_indexes)
    (hr : m.reset b = some m') :
    (∀ idx ∈ m.dirty_indexes, ∀ i, idx * DIRTY_BLOCK_SIZE ≤ i →
        i < (idx + 1) * DIRTY_BLOCK_SIZE →
        m'.memory i = b.memory i ∧ m'.permissions i = b.permissions i) ∧
    (∀ i, (∀ idx ∈ m.dirty_indexes,
          i < idx * DIRTY_BLOCK_SIZE ∨ (idx + 1) * DIRTY_BLOCK_SIZE ≤ i) →
        m'.memory i = m.memory i ∧ m'.permissions i = m.permissions i) ∧
    m'.dirty_indexes = [] ∧
    (∀ w, w < m.dirty_bitmap_len → m'.dirty_bitmap w = 0) ∧
    m'.alloc_base = m.alloc_base := by
  obtain ⟨mr, hloop, rfl⟩ := reset_eq_some hr
  obtain ⟨f1, f2, f3, f4, f5⟩ := resetLoop_fields hloop
  refine ⟨?_, ?_, rfl, ?_, f4⟩
  · intro idx hidx i hlo hhi
    show mr.memory i = b.memory i ∧ mr.permissions i = b.permissions i
    exact resetLoop_mem_covered hlo hhi hloop hidx
  · intro i hout
    show mr.memory i = m.memory i ∧ mr.permissions i = m.permissions i
    exact resetLoop_mem_untouched hloop hout
  · intro w hw
    show mr.dirty_bitmap w = 0
    rcases resetLoop_bitmap_cases hloop (w := w) with h0 | he
    · exact h0
    · by_cases hz : m.dirty_bitmap w = 0
      · rw [he, hz]
      · have hex : ∃ t, t < DBE_BITS ∧ (m.dirty_bitmap w).testBit t = true := by
          by_contra hno
          push_neg at hno
          apply hz
          apply Nat.eq_of_testBit_eq
          intro t
          rw [Nat.zero_testBit]
          by_cases ht : t < DBE_BITS
          · have hf := hno t ht
            simpa using hf
          · exact Nat.testBit_lt_two_pow
              (lt_of_lt_of_le (hword w hw)
                (Nat.pow_le_pow_right (by norm_num) (by omega)))
        obtain ⟨t, ht, hbit⟩ := hex
        have hmem := hbits w hw t ht hbit
        have hz2 := resetLoop_bitmap_mem hloop hmem
        have hdiv : (w * DBE_BITS + t) / DBE_BITS = w := by
          have hD : DBE_BITS = 128 := rfl
          rw [hD] at ht ⊢
          omega
        rw [hdiv] at hz2
        exact hz2

/-- C2 witness: a fork of an allocated space is dirtied by one write to block
0 and then reset against its source: afterwards the log is empty, the bitmap
word is zero, byte 0 is restored to the baseline, and the cursor is
unchanged. -/
theorem c2_reset_restores_dirty_blocks_witness :
    mmu4096w.reset mmu4096a =
      some ((mmu4096w.reset mmu4096a).get (by decide)) ∧
    ((mmu4096w.reset mmu4096a).get (by decide)).dirty_indexes = [] ∧
    ((mmu4096w.reset mmu4096a).get (by decide)).dirty_bitmap 0 = 0 ∧
    ((mmu4096w.reset mmu4096a).get (by decide)).memory 0 = mmu4096a.memory 0 ∧
    ((mmu4096w.reset mmu4096a).get (by decide)).permissions 0 =
      mmu4096a.permissions 0 ∧
    ((mmu4096w.reset mmu4096a).get (by decide)).alloc_base =
      mmu4096w.alloc_base := by
  have happ := c2_reset_restores_dirty_blocks mmu4096w mmu4096a
    ((mmu4096w.reset mmu4096a).get (by decide))
    ⟨by decide, by decide⟩ (by decide) (by decide)
    (Option.some_get (by decide)).symm
  exact ⟨(Option.some_get (by decide)).symm,
         happ.2.2.1,
         happ.2.2.2.1 0 (by decide),
         (happ.1 0 (by decide) 0 (by decide) (by decide)).1,
         (happ.1 0 (by decide) 0 (by decide) (by decide)).2,
         happ.2.2.2.2⟩
